import Mathlib

/-!
# Static HMC kernel (`src/static_hmc.h`) : embedding and verified properties

The C++ class `static_hmc` is embedded as pure functions over an explicit kernel state.

Modelling conventions.

* Scalars.  A C++ `double` that can only hold an ordinary number in the claims under study
  (the entries of `q` and `p`, `epsilon`, `T`, the entries of the metric, the random draws) is an
  element of a linearly ordered field `K` with a floor function, with exact arithmetic: rounding
  and overflow of finite values are not modelled.  Every definition is generic in `K`, so it
  evaluates on `ℚ` and the theorems hold on `ℝ`.
* Energies.  The value of `logprob`, the Hamiltonian and the acceptance probability are
  `Double K`: a finite value of `K`, `+infinity`, `-infinity` or `NaN`, with the IEEE-754 rules
  for the special values in `-`, `<`, `exp` and `std::min`.
* External code.  `logprob` and `glogprob` (from `posterior.h`) and `exp` (from the C library)
  are parameters.  The random sources are made explicit: `transition` receives the vector `n` of
  standard-normal draws used by `sample_p` and the value `u` returned by `R::runif(0,1)`.
* `static_cast<int>` of a value outside the range of `int` is undefined behaviour: `update_L`
  returns `none` there.
-/

namespace StaticHMC

/-! ## Doubles with the IEEE special values -/

/-- A C++ `double` as used for energies: a finite value, an infinity, or NaN. -/
inductive Double (K : Type) where
  | nan : Double K
  | negInf : Double K
  | posInf : Double K
  | fin (x : K) : Double K
  deriving DecidableEq, Repr

namespace Double

variable {K : Type} [LinearOrderedField K]

/-- IEEE subtraction `a - b` (exact on finite values). -/
def sub : Double K → Double K → Double K
  | nan, _ => nan
  | _, nan => nan
  | posInf, posInf => nan
  | negInf, negInf => nan
  | posInf, _ => posInf
  | negInf, _ => negInf
  | fin _, posInf => negInf
  | fin _, negInf => posInf
  | fin a, fin b => fin (a - b)

/-- IEEE comparison `a < b`: false as soon as one side is NaN. -/
def lt : Double K → Double K → Bool
  | nan, _ => false
  | _, nan => false
  | negInf, negInf => false
  | negInf, _ => true
  | _, negInf => false
  | posInf, _ => false
  | fin _, posInf => true
  | fin a, fin b => decide (a < b)

/-- IEEE comparison `a > b`, that is `b < a`. -/
def gt (a b : Double K) : Bool := lt b a

/-- IEEE comparison `a <= b`: false as soon as one side is NaN. -/
def le : Double K → Double K → Bool
  | nan, _ => false
  | _, nan => false
  | negInf, _ => true
  | _, posInf => true
  | posInf, _ => false
  | fin _, negInf => false
  | fin a, fin b => decide (a ≤ b)

/-- The test `std::isnan`. -/
def isnan : Double K → Bool
  | nan => true
  | _ => false

/-- The test `std::isfinite`. -/
def isfinite : Double K → Bool
  | fin _ => true
  | _ => false

/-- The C library `exp`, given the exponential `e` on finite values. -/
def exp (e : K → K) : Double K → Double K
  | nan => nan
  | negInf => fin 0
  | posInf => posInf
  | fin x => fin (e x)

/-- The function `std::min(a, b)`, which is `(b < a) ? b : a`. -/
def min (a b : Double K) : Double K := if lt b a then b else a

end Double

/-! ## Phase-space point, metric, posterior -/

/-- The phase-space point `ps_point`: position `q` and momentum `p` of dimension `d`. -/
@[ext]
structure ps_point (K : Type) (d : ℕ) where
  q : Fin d → K
  p : Fin d → K

/-- The two instantiations of the template parameter `metric`:
`arma::vec` (diagonal) and `arma::mat` (dense). -/
inductive MetricKind where
  | vec : MetricKind
  | mat : MetricKind
  deriving DecidableEq, Repr

/-- The C++ type the template parameter `metric` stands for. -/
def metric (K : Type) (d : ℕ) : MetricKind → Type
  | .vec => Fin d → K
  | .mat => Matrix (Fin d) (Fin d) K

/-- The functions of `posterior.h` the kernel calls: the log-posterior `logprob` (which may be
infinite or NaN) and its gradient `glogprob`.  `Mat` is the type of `X` and `B`, `Par` the type of
`param`. -/
structure posterior (K : Type) (d : ℕ) (Mat Par : Type) where
  logprob : (Fin d → K) → Mat → Mat → Par → Double K
  glogprob : (Fin d → K) → Mat → Mat → Par → (Fin d → K)

/-- The data members of the class `static_hmc`. -/
structure static_hmc (K : Type) (d : ℕ) (Mat Par : Type) where
  T : K
  L : Int
  divergent : Bool
  z : ps_point K d
  X : Mat
  B : Mat
  param : Par

/-- The value `Rcpp::List` returned by `transition`, with its two named entries. -/
structure transition_out (K : Type) (d : ℕ) where
  theta : Fin d → K
  accept_prob : Double K

section kernel

variable {K : Type} [LinearOrderedField K] {d : ℕ} {Mat Par : Type}

/-- Modelled from the spec: `ps_point::sample_p` for a diagonal `Msqrt` (`ps_point.h` is not among
the sources).  The momentum becomes `Msqrt` applied element-wise to the vector `n` of independent
standard-normal draws; the position is untouched. -/
def sample_p_vec (z : ps_point K d) (Msqrt : Fin d → K) (n : Fin d → K) : ps_point K d :=
  { z with p := Msqrt * n }

/-- Modelled from the spec: `ps_point::sample_p` for a dense `Msqrt` (`ps_point.h` is not among
the sources).  The momentum becomes the matrix-vector product of `Msqrt` and the vector `n` of
independent standard-normal draws; the position is untouched. -/
def sample_p_mat (z : ps_point K d) (Msqrt : Matrix (Fin d) (Fin d) K) (n : Fin d → K) :
    ps_point K d :=
  { z with p := Matrix.mulVec Msqrt n }

/-- Overload resolution of `z.sample_p(Misqrt)` on the type of `Misqrt`. -/
def sample_p : (k : MetricKind) → ps_point K d → metric K d k → (Fin d → K) → ps_point K d
  | .vec => sample_p_vec
  | .mat => sample_p_mat

/-- Armadillo `square`: element-wise square. -/
def square (v : Fin d → K) : Fin d → K := fun i => v i * v i

/-- Armadillo `dot`. -/
def dot (v w : Fin d → K) : K := ∑ i, v i * w i

/-- Modelled from the spec: the constructor `ps_point(q0)` (`ps_point.h` is not among the
sources).  The position is initialised to `q0`; the momentum is left undefined until the first
resample, so it holds an indeterminate value `p0`. -/
def ps_point.ps_point (q0 p0 : Fin d → K) : ps_point K d :=
  { q := q0, p := p0 }

/-- The constructor `static_hmc(q0, X, B, param)`.  Its initialiser list sets `T(1)`,
`divergent(false)`, `z(q0)`, `X(X)`, `B(B)`, `param(param)` and has no entry for `L`, which
therefore holds an indeterminate value `L0`; `p0` is the indeterminate momentum of `z(q0)`. -/
def static_hmc.static_hmc (q0 : Fin d → K) (X B : Mat) (param : Par) (L0 : Int)
    (p0 : Fin d → K) : static_hmc K d Mat Par :=
  { T := 1, L := L0, divergent := false, z := ps_point.ps_point q0 p0,
    X := X, B := B, param := param }

/-- `static_hmc::set_T`. -/
def set_T (self : static_hmc K d Mat Par) (t : K) : static_hmc K d Mat Par :=
  if t > 0 then { self with T := t } else self

/-- The conversion `static_cast<int>(x)` of a double: truncation toward zero; `none` (undefined
behaviour) when the truncated value is not representable in a 32-bit `int`. -/
def static_cast_int [FloorRing K] (x : K) : Option Int :=
  let t : Int := if 0 ≤ x then ⌊x⌋ else ⌈x⌉
  if -2147483648 ≤ t ∧ t ≤ 2147483647 then some t else none

/-- `static_hmc::update_L`.  A zero `epsilon` makes `T / epsilon` infinite or NaN, whose
conversion to `int` is undefined as well. -/
def update_L [FloorRing K] (self : static_hmc K d Mat Par) (epsilon : K) :
    Option (static_hmc K d Mat Par) :=
  if epsilon = 0 then none
  else
    match static_cast_int (self.T / epsilon) with
    | none => none
    | some l =>
      let self1 := { self with L := l }
      some { self1 with L := if self1.L < 1 then 1 else self1.L }

/-- `static_hmc::get_L`. -/
def get_L (self : static_hmc K d Mat Par) : Int := self.L

/-- `static_hmc::is_divergent`. -/
def is_divergent (self : static_hmc K d Mat Par) : Bool := self.divergent

/-- `static_hmc::hamiltonian`, overload for a diagonal `Minv`. -/
def hamiltonian_vec (E : posterior K d Mat Par) (self : static_hmc K d Mat Par)
    (z : ps_point K d) (Minv : Fin d → K) : Double K :=
  Double.sub (E.logprob z.q self.X self.B self.param)
    (Double.fin (0.5 * dot (square z.p) Minv))

/-- `static_hmc::hamiltonian`, overload for a dense `Minv`. -/
def hamiltonian_mat (E : posterior K d Mat Par) (self : static_hmc K d Mat Par)
    (z : ps_point K d) (Minv : Matrix (Fin d) (Fin d) K) : Double K :=
  Double.sub (E.logprob z.q self.X self.B self.param)
    (Double.fin (0.5 * Matrix.dotProduct (Matrix.vecMul z.p Minv) z.p))

/-- Overload resolution of `hamiltonian(z, Minv)` on the type of `Minv`. -/
def hamiltonian (E : posterior K d Mat Par) (self : static_hmc K d Mat Par) :
    (k : MetricKind) → ps_point K d → metric K d k → Double K
  | .vec => hamiltonian_vec E self
  | .mat => hamiltonian_mat E self

/-- `static_hmc::evolve`, overload for a diagonal `Minv`: the three assignments in order. -/
def evolve_vec (E : posterior K d Mat Par) (self : static_hmc K d Mat Par)
    (z : ps_point K d) (epsilon : K) (Minv : Fin d → K) : ps_point K d :=
  let z1 : ps_point K d :=
    { z with p := z.p + (0.5 * epsilon) • E.glogprob z.q self.X self.B self.param }
  let z2 : ps_point K d := { z1 with q := z1.q + epsilon • (Minv * z1.p) }
  { z2 with p := z2.p + (0.5 * epsilon) • E.glogprob z2.q self.X self.B self.param }

/-- `static_hmc::evolve`, overload for a dense `Minv`: the three assignments in order. -/
def evolve_mat (E : posterior K d Mat Par) (self : static_hmc K d Mat Par)
    (z : ps_point K d) (epsilon : K) (Minv : Matrix (Fin d) (Fin d) K) : ps_point K d :=
  let z1 : ps_point K d :=
    { z with p := z.p + (0.5 * epsilon) • E.glogprob z.q self.X self.B self.param }
  let z2 : ps_point K d := { z1 with q := z1.q + epsilon • (Matrix.mulVec Minv z1.p) }
  { z2 with p := z2.p + (0.5 * epsilon) • E.glogprob z2.q self.X self.B self.param }

/-- Overload resolution of `evolve(z, epsilon, Minv)` on the type of `Minv`. -/
def evolve (E : posterior K d Mat Par) (self : static_hmc K d Mat Par) :
    (k : MetricKind) → ps_point K d → K → metric K d k → ps_point K d
  | .vec => evolve_vec E self
  | .mat => evolve_mat E self

/-- `static_hmc::transition<metric>`.  `e` is the exponential on finite values, `n` the
standard-normal draws consumed by `sample_p`, `u` the value of `R::runif(0,1)`.  The result is
the kernel after the call together with the returned list. -/
def transition (E : posterior K d Mat Par) (e : K → K) (k : MetricKind)
    (self : static_hmc K d Mat Par) (epsilon : K) (Minv Misqrt : metric K d k)
    (n : Fin d → K) (u : K) : static_hmc K d Mat Par × transition_out K d :=
  -- this->z.sample_p(Misqrt);
  let self1 := { self with z := sample_p k self.z Misqrt n }
  -- ps_point z_init(this->z);
  let z_init := self1.z
  -- double H0 = this->hamiltonian(this->z, Minv);
  let H0 := hamiltonian E self1 k self1.z Minv
  -- for (int i = 0; i < this->L; ++i) this->evolve(this->z, epsilon, Minv);
  let self2 := { self1 with z := (fun z => evolve E self1 k z epsilon Minv)^[self1.L.toNat] self1.z }
  -- double h = this->hamiltonian(this->z, Minv);
  let h := hamiltonian E self2 k self2.z Minv
  -- if (std::isnan(h)) { this->divergent = true; h = infinity; }
  let self3 := if Double.isnan h then { self2 with divergent := true } else self2
  let h1 := if Double.isnan h then Double.posInf else h
  -- double acceptProb = std::min(1.0, exp(h - H0));
  let acceptProb := Double.min (Double.fin 1) (Double.exp e (Double.sub h1 H0))
  -- if (R::runif(0,1) > acceptProb) this->z = z_init;
  let self4 := if Double.gt (Double.fin u) acceptProb then { self3 with z := z_init } else self3
  (self4, { theta := self4.z.q, accept_prob := acceptProb })

/-! ## Sequences of calls on one kernel -/

/-- One call of a public member function on a kernel, with its arguments and the random draws it
consumes.  `evolve_own` is `evolve` called on the kernel's own (public) point `z`. -/
inductive call (K : Type) (d : ℕ) where
  | transition (k : MetricKind) (epsilon : K) (Minv Misqrt : metric K d k) (n : Fin d → K)
      (u : K) : call K d
  | set_T (t : K) : call K d
  | update_L (epsilon : K) : call K d
  | get_L : call K d
  | is_divergent : call K d
  | hamiltonian (k : MetricKind) (z : ps_point K d) (Minv : metric K d k) : call K d
  | evolve (k : MetricKind) (z : ps_point K d) (epsilon : K) (Minv : metric K d k) : call K d
  | evolve_own (k : MetricKind) (epsilon : K) (Minv : metric K d k) : call K d

/-- The kernel after one call (`none`: the call has undefined behaviour).  The member functions
`get_L`, `is_divergent` and `hamiltonian` only read the kernel; `evolve` writes to the point it is
given by reference. -/
def step [FloorRing K] (E : posterior K d Mat Par) (e : K → K) (self : static_hmc K d Mat Par) :
    call K d → Option (static_hmc K d Mat Par)
  | .transition k epsilon Minv Misqrt n u => some (transition E e k self epsilon Minv Misqrt n u).1
  | .set_T t => some (set_T self t)
  | .update_L epsilon => update_L self epsilon
  | .get_L => some self
  | .is_divergent => some self
  | .hamiltonian _ _ _ => some self
  | .evolve _ _ _ _ => some self
  | .evolve_own k epsilon Minv => some { self with z := evolve E self k self.z epsilon Minv }

/-- The kernel after a finite sequence of calls, in order. -/
def run [FloorRing K] (E : posterior K d Mat Par) (e : K → K) :
    static_hmc K d Mat Par → List (call K d) → Option (static_hmc K d Mat Par)
  | s, [] => some s
  | s, c :: cs => (step E e s c).bind fun s1 => run E e s1 cs

/-- The arguments of one call of `transition`, with the random draws it consumes. -/
structure transition_args (K : Type) (d : ℕ) where
  k : MetricKind
  epsilon : K
  Minv : metric K d k
  Misqrt : metric K d k
  n : Fin d → K
  u : K

/-- The Hamiltonian `h` that `transition` evaluates after its leapfrog loop (before the NaN
test), for the kernel `self` and the arguments `a`. -/
def final_hamiltonian (E : posterior K d Mat Par) (self : static_hmc K d Mat Par)
    (a : transition_args K d) : Double K :=
  hamiltonian E self a.k
    ((fun z => evolve E self a.k z a.epsilon a.Minv)^[(get_L self).toNat]
      (sample_p a.k self.z a.Misqrt a.n)) a.Minv

/-- The kernel after a finite sequence of calls of `transition`, in order. -/
def transitions (E : posterior K d Mat Par) (e : K → K) :
    static_hmc K d Mat Par → List (transition_args K d) → static_hmc K d Mat Par
  | s, [] => s
  | s, a :: as =>
    transitions E e (transition E e a.k s a.epsilon a.Minv a.Misqrt a.n a.u).1 as

/-- Whether at least one call of a sequence of calls of `transition` produced a NaN final
Hamiltonian. -/
def some_final_hamiltonian_nan (E : posterior K d Mat Par) (e : K → K) :
    static_hmc K d Mat Par → List (transition_args K d) → Bool
  | _, [] => false
  | s, a :: as =>
    Double.isnan (final_hamiltonian E s a) ||
      some_final_hamiltonian_nan E e
        (transition E e a.k s a.epsilon a.Minv a.Misqrt a.n a.u).1 as

end kernel

/-! ## Concrete data used to instantiate the theorems -/

/-- The one-dimensional standard normal posterior: `logprob(q) = -0.5 * q^2` and
`glogprob(q) = -q`, with no auxiliary data. -/
def std_normal (K : Type) [LinearOrderedField K] : posterior K 1 Unit Unit where
  logprob := fun q _ _ _ => Double.fin (-0.5 * (q 0 * q 0))
  glogprob := fun q _ _ _ => -q

/-- The standard normal posterior cut off at `1/2`: positions with `q >= 1/2` are infeasible and
have log-posterior `-infinity`. -/
def truncated_normal (K : Type) [LinearOrderedField K] : posterior K 1 Unit Unit where
  logprob := fun q _ _ _ => if q 0 < 1 / 2 then Double.fin (-0.5 * (q 0 * q 0)) else Double.negInf
  glogprob := fun q _ _ _ => -q

/-- A posterior whose evaluation breaks down (NaN) at every position with `q >= 1/2`. -/
def unstable_normal (K : Type) [LinearOrderedField K] : posterior K 1 Unit Unit where
  logprob := fun q _ _ _ => if q 0 < 1 / 2 then Double.fin (-0.5 * (q 0 * q 0)) else Double.nan
  glogprob := fun q _ _ _ => -q

/-- A kernel of dimension one at position `0`, with `T = 1`, `L = 2` and the divergent
flag `b`. -/
def kernel_at_zero (K : Type) [LinearOrderedField K] (b : Bool) : static_hmc K 1 Unit Unit :=
  { T := 1, L := 2, divergent := b, z := { q := fun _ => 0, p := fun _ => 0 },
    X := (), B := (), param := () }

/-- The diagonal metric of dimension one with entry `1`. -/
def unit_metric (K : Type) [LinearOrderedField K] : metric K 1 .vec := fun _ => 1

/-- A polynomial stand-in for the exponential on `ℚ`: `1 + x + x^2/2`. -/
def exp_poly (x : ℚ) : ℚ := 1 + x + x * x / 2

section lemmas

variable {K : Type} [LinearOrderedField K] {d : ℕ} {Mat Par : Type}

/-! ## Auxiliary lemmas -/

theorem hamiltonian_with_z (E : posterior K d Mat Par) (self : static_hmc K d Mat Par)
    (z0 : ps_point K d) (b : Bool) (k : MetricKind) (z : ps_point K d) (Minv : metric K d k) :
    hamiltonian E { self with z := z0, divergent := b } k z Minv = hamiltonian E self k z Minv := by
  cases k <;> rfl

theorem evolve_with_z (E : posterior K d Mat Par) (self : static_hmc K d Mat Par)
    (z0 : ps_point K d) (b : Bool) (k : MetricKind) (z : ps_point K d) (epsilon : K)
    (Minv : metric K d k) :
    evolve E { self with z := z0, divergent := b } k z epsilon Minv
      = evolve E self k z epsilon Minv := by
  cases k <;> rfl

/-- The body of `transition` written over the kernel before the call: with `z1` the point after
momentum resampling, `H0` its energy, `zL` the point after the leapfrog loop and `H` its energy. -/
theorem transition_eq (E : posterior K d Mat Par) (e : K → K) (k : MetricKind)
    (self : static_hmc K d Mat Par) (epsilon : K) (Minv Misqrt : metric K d k)
    (n : Fin d → K) (u : K) :
    let z1 := sample_p k self.z Misqrt n
    let H0 := hamiltonian E self k z1 Minv
    let zL := (fun z => evolve E self k z epsilon Minv)^[self.L.toNat] z1
    let H := hamiltonian E self k zL Minv
    let ap := Double.min (Double.fin 1)
      (Double.exp e (Double.sub (if Double.isnan H then Double.posInf else H) H0))
    let zf := if Double.gt (Double.fin u) ap then z1 else zL
    transition E e k self epsilon Minv Misqrt n u
      = ({ self with z := zf, divergent := if Double.isnan H then true else self.divergent },
         { theta := zf.q, accept_prob := ap }) := by
  intro z1 H0 zL H ap zf
  have hH0 : hamiltonian E { self with z := z1 } k z1 Minv = H0 :=
    hamiltonian_with_z E self z1 self.divergent k z1 Minv
  have hev : (fun z => evolve E { self with z := z1 } k z epsilon Minv)
      = fun z => evolve E self k z epsilon Minv := by
    funext z
    exact evolve_with_z E self z1 self.divergent k z epsilon Minv
  have hH : hamiltonian E { self with z := zL } k zL Minv = H :=
    hamiltonian_with_z E self zL self.divergent k zL Minv
  simp only [transition, hev, hH0]
  change (_ : static_hmc K d Mat Par × transition_out K d) = _
  simp only [hH]
  by_cases hn : Double.isnan H = true <;> simp [hn, ap, zf, H0, H, zL, z1] <;> split_ifs <;> simp

theorem sample_p_q (k : MetricKind) (z : ps_point K d) (Msqrt : metric K d k) (n : Fin d → K) :
    (sample_p k z Msqrt n).q = z.q := by
  cases k <;> rfl

theorem Double.lt_eq_false_of_le (a b : Double K) (h : Double.le a b = true) :
    Double.lt b a = false := by
  cases a <;> cases b <;> simp_all [Double.le, Double.lt]

/-- One leapfrog step from the momentum-reversed image of a leapfrog step undoes it. -/
theorem evolve_reverse_step (E : posterior K d Mat Par) (self : static_hmc K d Mat Par)
    (k : MetricKind) (epsilon : K) (Minv : metric K d k) (z : ps_point K d) :
    evolve E self k
        { q := (evolve E self k z epsilon Minv).q, p := -(evolve E self k z epsilon Minv).p }
        epsilon Minv
      = { q := z.q, p := -z.p } := by
  cases k with
  | vec =>
    have hq : (evolve E self .vec
        { q := (evolve E self .vec z epsilon Minv).q, p := -(evolve E self .vec z epsilon Minv).p }
        epsilon Minv).q = z.q := by
      funext i
      simp only [evolve, evolve_vec, Pi.add_apply, Pi.smul_apply, Pi.mul_apply, Pi.neg_apply,
        smul_eq_mul]
      ring
    refine ps_point.ext hq ?_
    have hp : ∀ w : ps_point K d, w.q = z.q →
        w.p = -(evolve E self .vec z epsilon Minv).p
          + (0.5 * epsilon) • E.glogprob (evolve E self .vec z epsilon Minv).q
              self.X self.B self.param
          + (0.5 * epsilon) • E.glogprob w.q self.X self.B self.param →
        w.p = -z.p := by
      intro w hw hwp
      rw [hwp, hw]
      funext i
      simp only [evolve, evolve_vec, Pi.add_apply, Pi.smul_apply, Pi.neg_apply, smul_eq_mul]
      ring
    exact hp _ hq rfl
  | mat =>
    have hq : (evolve E self .mat
        { q := (evolve E self .mat z epsilon Minv).q, p := -(evolve E self .mat z epsilon Minv).p }
        epsilon Minv).q = z.q := by
      simp only [evolve, evolve_mat]
      rw [show -(z.p + (0.5 * epsilon) • E.glogprob z.q self.X self.B self.param
            + (0.5 * epsilon) • E.glogprob
                (z.q + epsilon • Matrix.mulVec Minv
                  (z.p + (0.5 * epsilon) • E.glogprob z.q self.X self.B self.param))
                self.X self.B self.param)
          + (0.5 * epsilon) • E.glogprob
                (z.q + epsilon • Matrix.mulVec Minv
                  (z.p + (0.5 * epsilon) • E.glogprob z.q self.X self.B self.param))
                self.X self.B self.param
          = -(z.p + (0.5 * epsilon) • E.glogprob z.q self.X self.B self.param) by abel]
      rw [Matrix.mulVec_neg, smul_neg]
      abel
    refine ps_point.ext hq ?_
    have hp : ∀ w : ps_point K d, w.q = z.q →
        w.p = -(evolve E self .mat z epsilon Minv).p
          + (0.5 * epsilon) • E.glogprob (evolve E self .mat z epsilon Minv).q
              self.X self.B self.param
          + (0.5 * epsilon) • E.glogprob w.q self.X self.B self.param →
        w.p = -z.p := by
      intro w hw hwp
      rw [hwp, hw]
      simp only [evolve, evolve_mat]
      abel
    exact hp _ hq rfl

/-- The truncated and clamped quotient of `update_L` is `max 1 (floor x)`. -/
theorem trunc_clamp_eq_max [FloorRing K] (x : K) :
    (if (if 0 ≤ x then ⌊x⌋ else ⌈x⌉) < 1 then (1 : Int) else (if 0 ≤ x then ⌊x⌋ else ⌈x⌉))
      = max 1 ⌊x⌋ := by
  by_cases hx : 0 ≤ x
  · simp only [hx, if_true]
    split_ifs with h
    · exact (max_eq_left (by omega)).symm
    · exact (max_eq_right (by omega)).symm
  · have hx0 : x < 0 := not_le.mp hx
    have h1 : ⌈x⌉ ≤ 0 := Int.ceil_le.mpr (by exact_mod_cast hx0.le)
    have h2 : ⌊x⌋ < 0 := Int.floor_lt.mpr (by exact_mod_cast hx0)
    simp only [hx, if_false]
    rw [if_pos (by omega)]
    exact (max_eq_left (by omega)).symm

/-- The conversion to `int` is defined when the value lies strictly between `-2^31 - 1` and
`2^31`. -/
theorem static_cast_int_eq [FloorRing K] (x : K) (hlo : -2147483649 < x) (hhi : x < 2147483648) :
    static_cast_int x = some (if 0 ≤ x then ⌊x⌋ else ⌈x⌉) := by
  have hrange : -2147483648 ≤ (if 0 ≤ x then ⌊x⌋ else ⌈x⌉)
      ∧ (if 0 ≤ x then ⌊x⌋ else ⌈x⌉) ≤ 2147483647 := by
    by_cases hx : 0 ≤ x
    · have h1 : 0 ≤ ⌊x⌋ := Int.floor_nonneg.mpr hx
      have h2 : ⌊x⌋ < 2147483648 := Int.floor_lt.mpr (by exact_mod_cast hhi)
      simp only [hx, if_true]
      omega
    · have hx0 : x < 0 := not_le.mp hx
      have h1 : ⌈x⌉ ≤ 0 := Int.ceil_le.mpr (by exact_mod_cast hx0.le)
      have h2 : -2147483649 < ⌈x⌉ := Int.lt_ceil.mpr (by exact_mod_cast hlo)
      simp only [hx, if_false]
      omega
  simp only [static_cast_int]
  rw [if_pos hrange]

/-- The value of `update_L` when the conversion to `int` is defined. -/
theorem update_L_eq [FloorRing K] (self : static_hmc K d Mat Par) (epsilon : K)
    (he : epsilon ≠ 0) (hlo : -2147483649 < self.T / epsilon)
    (hhi : self.T / epsilon < 2147483648) :
    update_L self epsilon = some { self with L := max 1 ⌊self.T / epsilon⌋ } := by
  simp only [update_L, if_neg he, static_cast_int_eq _ hlo hhi]
  rw [trunc_clamp_eq_max]

/-- The acceptance probability returned by `transition`. -/
theorem transition_accept_prob (E : posterior K d Mat Par) (e : K → K) (k : MetricKind)
    (self : static_hmc K d Mat Par) (epsilon : K) (Minv Misqrt : metric K d k)
    (n : Fin d → K) (u : K) :
    (transition E e k self epsilon Minv Misqrt n u).2.accept_prob
      = Double.min (Double.fin 1) (Double.exp e (Double.sub
          (if Double.isnan (hamiltonian E self k
              ((fun z => evolve E self k z epsilon Minv)^[(get_L self).toNat]
                (sample_p k self.z Misqrt n)) Minv)
            then Double.posInf
            else hamiltonian E self k
              ((fun z => evolve E self k z epsilon Minv)^[(get_L self).toNat]
                (sample_p k self.z Misqrt n)) Minv)
          (hamiltonian E self k (sample_p k self.z Misqrt n) Minv))) := by
  have hr := transition_eq E e k self epsilon Minv Misqrt n u
  simp only at hr
  rw [hr]
  rfl

/-- The divergent flag after `transition`. -/
theorem transition_divergent (E : posterior K d Mat Par) (e : K → K) (k : MetricKind)
    (self : static_hmc K d Mat Par) (epsilon : K) (Minv Misqrt : metric K d k)
    (n : Fin d → K) (u : K) :
    (transition E e k self epsilon Minv Misqrt n u).1.divergent
      = if Double.isnan (hamiltonian E self k
            ((fun z => evolve E self k z epsilon Minv)^[(get_L self).toNat]
              (sample_p k self.z Misqrt n)) Minv)
        then true else self.divergent := by
  have hr := transition_eq E e k self epsilon Minv Misqrt n u
  simp only at hr
  rw [hr]
  rfl

/-- The owned point after `transition`. -/
theorem transition_z (E : posterior K d Mat Par) (e : K → K) (k : MetricKind)
    (self : static_hmc K d Mat Par) (epsilon : K) (Minv Misqrt : metric K d k)
    (n : Fin d → K) (u : K) :
    (transition E e k self epsilon Minv Misqrt n u).1.z
      = if Double.gt (Double.fin u) (transition E e k self epsilon Minv Misqrt n u).2.accept_prob
        then sample_p k self.z Misqrt n
        else (fun z => evolve E self k z epsilon Minv)^[(get_L self).toNat]
          (sample_p k self.z Misqrt n) := by
  have hr := transition_eq E e k self epsilon Minv Misqrt n u
  simp only at hr
  rw [hr]
  rfl

/-- The returned `theta` is the position of the owned point after `transition`. -/
theorem transition_theta (E : posterior K d Mat Par) (e : K → K) (k : MetricKind)
    (self : static_hmc K d Mat Par) (epsilon : K) (Minv Misqrt : metric K d k)
    (n : Fin d → K) (u : K) :
    (transition E e k self epsilon Minv Misqrt n u).2.theta
      = (transition E e k self epsilon Minv Misqrt n u).1.z.q := by
  have hr := transition_eq E e k self epsilon Minv Misqrt n u
  simp only at hr
  rw [hr]

/-- The members `T`, `L`, `X`, `B`, `param` are not written by `transition`. -/
theorem transition_frame (E : posterior K d Mat Par) (e : K → K) (k : MetricKind)
    (self : static_hmc K d Mat Par) (epsilon : K) (Minv Misqrt : metric K d k)
    (n : Fin d → K) (u : K) :
    (transition E e k self epsilon Minv Misqrt n u).1.T = self.T ∧
    (transition E e k self epsilon Minv Misqrt n u).1.L = self.L ∧
    (transition E e k self epsilon Minv Misqrt n u).1.X = self.X ∧
    (transition E e k self epsilon Minv Misqrt n u).1.B = self.B ∧
    (transition E e k self epsilon Minv Misqrt n u).1.param = self.param := by
  have hr := transition_eq E e k self epsilon Minv Misqrt n u
  simp only at hr
  rw [hr]
  exact ⟨rfl, rfl, rfl, rfl, rfl⟩

/-- One call never clears the divergent flag. -/
theorem step_divergent [FloorRing K] (E : posterior K d Mat Par) (e : K → K)
    (s s1 : static_hmc K d Mat Par) (c : call K d) (hs : s.divergent = true)
    (hstep : step E e s c = some s1) : s1.divergent = true := by
  cases c with
  | transition k epsilon Minv Misqrt n u =>
    simp only [step, Option.some.injEq] at hstep
    rw [← hstep, transition_divergent, hs]
    simp
  | set_T t =>
    simp only [step, Option.some.injEq, set_T] at hstep
    rw [← hstep]
    split_ifs <;> exact hs
  | update_L epsilon =>
    simp only [step, update_L] at hstep
    split_ifs at hstep
    cases hc : static_cast_int (s.T / epsilon) with
    | none => simp [hc] at hstep
    | some l =>
      simp only [hc, Option.some.injEq] at hstep
      rw [← hstep]
      exact hs
  | get_L => simp only [step, Option.some.injEq] at hstep; rw [← hstep]; exact hs
  | is_divergent => simp only [step, Option.some.injEq] at hstep; rw [← hstep]; exact hs
  | hamiltonian k z Minv =>
    simp only [step, Option.some.injEq] at hstep; rw [← hstep]; exact hs
  | evolve k z epsilon Minv =>
    simp only [step, Option.some.injEq] at hstep; rw [← hstep]; exact hs
  | evolve_own k epsilon Minv =>
    simp only [step, Option.some.injEq] at hstep; rw [← hstep]; exact hs

/-- One call keeps the integration time positive. -/
theorem step_T_pos [FloorRing K] (E : posterior K d Mat Par) (e : K → K)
    (s s1 : static_hmc K d Mat Par) (c : call K d) (hs : 0 < s.T)
    (hstep : step E e s c = some s1) : 0 < s1.T := by
  cases c with
  | transition k epsilon Minv Misqrt n u =>
    simp only [step, Option.some.injEq] at hstep
    rw [← hstep, (transition_frame E e k s epsilon Minv Misqrt n u).1]
    exact hs
  | set_T t =>
    simp only [step, Option.some.injEq, set_T] at hstep
    rw [← hstep]
    split_ifs with ht
    · exact ht
    · exact hs
  | update_L epsilon =>
    simp only [step, update_L] at hstep
    split_ifs at hstep
    cases hc : static_cast_int (s.T / epsilon) with
    | none => simp [hc] at hstep
    | some l =>
      simp only [hc, Option.some.injEq] at hstep
      rw [← hstep]
      exact hs
  | get_L => simp only [step, Option.some.injEq] at hstep; rw [← hstep]; exact hs
  | is_divergent => simp only [step, Option.some.injEq] at hstep; rw [← hstep]; exact hs
  | hamiltonian k z Minv =>
    simp only [step, Option.some.injEq] at hstep; rw [← hstep]; exact hs
  | evolve k z epsilon Minv =>
    simp only [step, Option.some.injEq] at hstep; rw [← hstep]; exact hs
  | evolve_own k epsilon Minv =>
    simp only [step, Option.some.injEq] at hstep; rw [← hstep]; exact hs

/-- A sequence of calls keeps the integration time positive. -/
theorem run_T_pos [FloorRing K] (E : posterior K d Mat Par) (e : K → K)
    (cs : List (call K d)) (s s1 : static_hmc K d Mat Par) (hs : 0 < s.T)
    (hrun : run E e s cs = some s1) : 0 < s1.T := by
  induction cs generalizing s with
  | nil =>
    simp only [run, Option.some.injEq] at hrun
    rw [← hrun]
    exact hs
  | cons c cs ih =>
    simp only [run] at hrun
    cases hc : step E e s c with
    | none => simp [hc] at hrun
    | some s2 =>
      rw [hc] at hrun
      exact ih s2 (step_T_pos E e s s2 c hs hc) hrun

/-- A sequence of transitions never clears the divergent flag. -/
theorem transitions_divergent (E : posterior K d Mat Par) (e : K → K)
    (as : List (transition_args K d)) (s : static_hmc K d Mat Par) (hs : s.divergent = true) :
    (transitions E e s as).divergent = true := by
  induction as generalizing s with
  | nil => exact hs
  | cons a as ih =>
    simp only [transitions]
    apply ih
    rw [transition_divergent, hs]
    simp

end lemmas

section demo

variable {K : Type} [LinearOrderedField K]

/-- The demonstration kernel after momentum resampling with normal draw `1`. -/
theorem demo_start (b : Bool) :
    sample_p .vec (kernel_at_zero K b).z (unit_metric K) (fun _ => 1)
      = { q := fun _ => 0, p := fun _ => 1 } := by
  refine ps_point.ext rfl ?_
  funext i
  simp [sample_p, sample_p_vec, unit_metric]

/-- Two leapfrog steps of size `1/2` from `(0, 1)` under a gradient `-q` end at
`(7/8, 17/32)`. -/
theorem demo_end (E : posterior K 1 Unit Unit) (hE : ∀ q X B r, E.glogprob q X B r = -q)
    (b : Bool) :
    (fun z => evolve E (kernel_at_zero K b) .vec z (1 / 2) (unit_metric K))^[2]
        { q := fun _ => 0, p := fun _ => 1 }
      = { q := fun _ => 7 / 8, p := fun _ => 17 / 32 } := by
  simp only [Function.iterate_succ, Function.iterate_zero, Function.comp_apply, id_eq, evolve,
    evolve_vec, hE, unit_metric]
  refine ps_point.ext ?_ ?_ <;> funext i <;>
    simp only [Pi.add_apply, Pi.smul_apply, Pi.mul_apply, Pi.neg_apply, smul_eq_mul] <;>
    norm_num <;> simp only [show unit_metric K i = 1 from rfl] <;> norm_num

/-- The Hamiltonian under the unit metric in dimension one. -/
theorem demo_energy (E : posterior K 1 Unit Unit) (s : static_hmc K 1 Unit Unit)
    (z : ps_point K 1) :
    hamiltonian E s .vec z (unit_metric K)
      = Double.sub (E.logprob z.q () () ()) (Double.fin (0.5 * (z.p 0 * z.p 0))) := by
  simp [hamiltonian, hamiltonian_vec, dot, square, unit_metric]

/-- The point reached by the leapfrog loop of the demonstration kernel. -/
theorem demo_loop (E : posterior K 1 Unit Unit) (hE : ∀ q X B r, E.glogprob q X B r = -q)
    (b : Bool) :
    (fun z => evolve E (kernel_at_zero K b) .vec z (1 / 2) (unit_metric K))^[
        (get_L (kernel_at_zero K b)).toNat]
        (sample_p .vec (kernel_at_zero K b).z (unit_metric K) (fun _ => 1))
      = { q := fun _ => 7 / 8, p := fun _ => 17 / 32 } := by
  rw [demo_start, show (get_L (kernel_at_zero K b)).toNat = 2 from rfl]
  exact demo_end E hE b

/-- Energy of the demonstration kernel before the leapfrog loop, standard normal posterior. -/
theorem demo_H0_std (b : Bool) :
    hamiltonian (std_normal K) (kernel_at_zero K b) .vec
        (sample_p .vec (kernel_at_zero K b).z (unit_metric K) (fun _ => 1)) (unit_metric K)
      = Double.fin (-(1 / 2)) := by
  rw [demo_start, demo_energy]
  simp only [std_normal, Double.sub]
  norm_num

/-- Energy of the demonstration kernel after the leapfrog loop, standard normal posterior. -/
theorem demo_H_std (b : Bool) :
    hamiltonian (std_normal K) (kernel_at_zero K b) .vec
        ((fun z => evolve (std_normal K) (kernel_at_zero K b) .vec z (1 / 2) (unit_metric K))^[
          (get_L (kernel_at_zero K b)).toNat]
          (sample_p .vec (kernel_at_zero K b).z (unit_metric K) (fun _ => 1))) (unit_metric K)
      = Double.fin (-(1073 / 2048)) := by
  rw [demo_loop (std_normal K) (fun _ _ _ _ => rfl), demo_energy]
  simp only [std_normal, Double.sub]
  norm_num

/-- Energy before the leapfrog loop, truncated normal posterior. -/
theorem demo_H0_truncated (b : Bool) :
    hamiltonian (truncated_normal K) (kernel_at_zero K b) .vec
        (sample_p .vec (kernel_at_zero K b).z (unit_metric K) (fun _ => 1)) (unit_metric K)
      = Double.fin (-(1 / 2)) := by
  rw [demo_start, demo_energy]
  simp only [truncated_normal]
  rw [if_pos (by norm_num)]
  simp only [Double.sub]
  norm_num

/-- Energy after the leapfrog loop, truncated normal posterior: the proposal is infeasible. -/
theorem demo_H_truncated (b : Bool) :
    hamiltonian (truncated_normal K) (kernel_at_zero K b) .vec
        ((fun z => evolve (truncated_normal K) (kernel_at_zero K b) .vec z (1 / 2)
          (unit_metric K))^[(get_L (kernel_at_zero K b)).toNat]
          (sample_p .vec (kernel_at_zero K b).z (unit_metric K) (fun _ => 1))) (unit_metric K)
      = Double.negInf := by
  rw [demo_loop (truncated_normal K) (fun _ _ _ _ => rfl), demo_energy]
  simp only [truncated_normal]
  rw [if_neg (by norm_num)]
  rfl

/-- Energy before the leapfrog loop, unstable posterior. -/
theorem demo_H0_unstable (b : Bool) :
    hamiltonian (unstable_normal K) (kernel_at_zero K b) .vec
        (sample_p .vec (kernel_at_zero K b).z (unit_metric K) (fun _ => 1)) (unit_metric K)
      = Double.fin (-(1 / 2)) := by
  rw [demo_start, demo_energy]
  simp only [unstable_normal]
  rw [if_pos (by norm_num)]
  simp only [Double.sub]
  norm_num

/-- Energy after the leapfrog loop, unstable posterior: NaN. -/
theorem demo_H_unstable (b : Bool) :
    hamiltonian (unstable_normal K) (kernel_at_zero K b) .vec
        ((fun z => evolve (unstable_normal K) (kernel_at_zero K b) .vec z (1 / 2)
          (unit_metric K))^[(get_L (kernel_at_zero K b)).toNat]
          (sample_p .vec (kernel_at_zero K b).z (unit_metric K) (fun _ => 1))) (unit_metric K)
      = Double.nan := by
  rw [demo_loop (unstable_normal K) (fun _ _ _ _ => rfl), demo_energy]
  simp only [unstable_normal]
  rw [if_neg (by norm_num)]
  rfl

/-- One leapfrog step for the standard normal posterior under the unit metric, in
coordinates. -/
theorem std_evolve (s : static_hmc K 1 Unit Unit) (z : ps_point K 1) (eps : K) :
    evolve (std_normal K) s .vec z eps (unit_metric K)
      = { q := fun _ => z.q 0 + eps * (z.p 0 - eps / 2 * z.q 0),
          p := fun _ => z.p 0 - eps / 2 * z.q 0
            - eps / 2 * (z.q 0 + eps * (z.p 0 - eps / 2 * z.q 0)) } := by
  have hhalf : (0.5 : K) * eps = eps / 2 := by norm_num; ring
  refine ps_point.ext ?_ ?_ <;> funext i <;> rw [Subsingleton.elim i 0] <;>
    simp only [evolve, evolve_vec, std_normal, unit_metric, hhalf, Pi.add_apply, Pi.smul_apply,
      Pi.mul_apply, Pi.neg_apply, smul_eq_mul] <;> ring

/-- One leapfrog step from an explicit point `(a, b)`. -/
theorem std_evolve_const (s : static_hmc K 1 Unit Unit) (a b eps : K) :
    evolve (std_normal K) s .vec { q := fun _ => a, p := fun _ => b } eps (unit_metric K)
      = { q := fun _ => a + eps * (b - eps / 2 * a),
          p := fun _ => b - eps / 2 * a - eps / 2 * (a + eps * (b - eps / 2 * a)) } :=
  std_evolve s { q := fun _ => a, p := fun _ => b } eps

/-- The Hamiltonian of the standard normal posterior under the unit metric is
`-(q^2 + p^2)/2`. -/
theorem std_energy (s : static_hmc K 1 Unit Unit) (z : ps_point K 1) :
    hamiltonian (std_normal K) s .vec z (unit_metric K)
      = Double.fin (-(1 / 2) * (z.q 0 ^ 2 + z.p 0 ^ 2)) := by
  rw [demo_energy]
  simp only [std_normal, Double.sub]
  congr 1
  norm_num
  ring

/-- The leapfrog step conserves the modified energy `p^2 + (1 - eps^2/4) q^2`. -/
theorem std_evolve_invariant (s : static_hmc K 1 Unit Unit) (z : ps_point K 1) (eps : K) :
    (evolve (std_normal K) s .vec z eps (unit_metric K)).p 0 ^ 2
        + (1 - eps ^ 2 / 4) * (evolve (std_normal K) s .vec z eps (unit_metric K)).q 0 ^ 2
      = z.p 0 ^ 2 + (1 - eps ^ 2 / 4) * z.q 0 ^ 2 := by
  rw [std_evolve]
  ring

/-- Any number of leapfrog steps conserves the modified energy. -/
theorem std_iterate_invariant (s : static_hmc K 1 Unit Unit) (eps : K) (L : ℕ)
    (z : ps_point K 1) :
    ((fun w => evolve (std_normal K) s .vec w eps (unit_metric K))^[L] z).p 0 ^ 2
        + (1 - eps ^ 2 / 4)
          * ((fun w => evolve (std_normal K) s .vec w eps (unit_metric K))^[L] z).q 0 ^ 2
      = z.p 0 ^ 2 + (1 - eps ^ 2 / 4) * z.q 0 ^ 2 := by
  induction L generalizing z with
  | zero => rfl
  | succ L ih =>
    rw [Function.iterate_succ_apply, ih, std_evolve_invariant]

/-- The energy gap after leapfrog steps, from the conserved modified energy. -/
theorem std_energy_gap (eps q0 p0 qL pL : K)
    (hinv : pL ^ 2 + (1 - eps ^ 2 / 4) * qL ^ 2 = p0 ^ 2 + (1 - eps ^ 2 / 4) * q0 ^ 2) :
    -(1 / 2) * (qL ^ 2 + pL ^ 2) - -(1 / 2) * (q0 ^ 2 + p0 ^ 2)
      = -(eps ^ 2 / 8) * (qL ^ 2 - q0 ^ 2) := by
  linear_combination (-(1 / 2 : K)) * hinv

/-- The end-to-end scenario: a fresh kernel at `q = 0` after `update_L(0.1)` has `L = 10`. -/
theorem scenario_update [FloorRing K] (L0 : Int) (p0 : Fin 1 → K) :
    update_L (static_hmc.static_hmc (fun _ => (0 : K)) () () () L0 p0) 0.1
      = some { static_hmc.static_hmc (fun _ => (0 : K)) () () () L0 p0 with L := 10 } := by
  have hT : (static_hmc.static_hmc (fun _ => (0 : K)) () () () L0 p0).T = 1 := rfl
  have h10 : ⌊(1 : K) / 0.1⌋ = 10 := by
    rw [Int.floor_eq_iff]
    constructor <;> norm_num
  rw [update_L_eq _ 0.1 (by norm_num) (by rw [hT]; norm_num) (by rw [hT]; norm_num), hT, h10]
  rfl

/-- Momentum resampling under the unit metric, in coordinates. -/
theorem unit_sample_p (z : ps_point K 1) (n : Fin 1 → K) :
    (sample_p .vec z (unit_metric K) n).q 0 = z.q 0 ∧
    (sample_p .vec z (unit_metric K) n).p 0 = n 0 := by
  constructor
  · rfl
  · simp [sample_p, sample_p_vec, unit_metric]

end demo

section claims

variable {K : Type} [LinearOrderedField K] {d : ℕ} {Mat Par : Type}

/-! ## C1, C2 : the accept/reject step of `transition` -/

/-- C1: with `z1` the owned point after momentum resampling, `H0 = hamiltonian(z1, Minv)`, `zL`
the result of `get_L()` applications of `evolve` to `z1` and `H = hamiltonian(zL, Minv)`: when `H`
is not NaN (in particular when it is finite) `transition` returns
`accept.prob = min(1, exp(H - H0))`, and when `u <= accept.prob` the owned point after the call is
`zL` and the returned `theta` is `zL.q`.  In every case the returned `theta` is the kernel's own
position after the call. -/
theorem transition_accept_contract (E : posterior K d Mat Par) (e : K → K) (k : MetricKind)
    (self : static_hmc K d Mat Par) (epsilon : K) (Minv Misqrt : metric K d k)
    (n : Fin d → K) (u : K) :
    let z1 := sample_p k self.z Misqrt n
    let H0 := hamiltonian E self k z1 Minv
    let zL := (fun z => evolve E self k z epsilon Minv)^[(get_L self).toNat] z1
    let H := hamiltonian E self k zL Minv
    let r := transition E e k self epsilon Minv Misqrt n u
    (Double.isnan H = false →
      r.2.accept_prob = Double.min (Double.fin 1) (Double.exp e (Double.sub H H0)) ∧
      (Double.le (Double.fin u) r.2.accept_prob = true → r.1.z = zL ∧ r.2.theta = zL.q)) ∧
    r.2.theta = r.1.z.q := by
  intro z1 H0 zL H r
  have hr := transition_eq E e k self epsilon Minv Misqrt n u
  simp only at hr
  refine ⟨fun hn => ?_, ?_⟩
  · have hap : r.2.accept_prob
        = Double.min (Double.fin 1) (Double.exp e (Double.sub H H0)) := by
      simp only [r, hr]
      simp only [H, zL, z1, H0, get_L] at hn ⊢
      simp [hn]
    refine ⟨hap, fun hu => ?_⟩
    have hlt := Double.lt_eq_false_of_le _ _ hu
    rw [hap] at hlt
    simp only [H, zL, z1, H0, get_L] at hn hlt
    simp only [r, hr, Double.gt, hn, zL, z1, get_L]
    simp [hlt]
  · simp only [r, hr]

/-- Instance of C1: the standard normal posterior over `ℚ`, kernel at `q = 0` with `L = 2`, step
`1/2`, unit metric, normal draw `1`, uniform draw `0`, and the exponential replaced by the
constant `1`: the energy after the loop is not NaN, the draw is accepted, and the kernel ends at
the point reached by the two leapfrog steps. -/
theorem transition_accept_contract_witness :
    Double.isnan (hamiltonian (std_normal ℚ) (kernel_at_zero ℚ false) .vec
      ((fun z => evolve (std_normal ℚ) (kernel_at_zero ℚ false) .vec z (1/2) (unit_metric ℚ))^[2]
        (sample_p .vec (kernel_at_zero ℚ false).z (unit_metric ℚ) (fun _ => 1))) (unit_metric ℚ)) = false ∧
    (transition (std_normal ℚ) (fun _ => 1) .vec (kernel_at_zero ℚ false) (1/2)
      (unit_metric ℚ) (unit_metric ℚ) (fun _ => 1) 0).1.z
      = (fun z => evolve (std_normal ℚ) (kernel_at_zero ℚ false) .vec z (1/2) (unit_metric ℚ))^[2]
        (sample_p .vec (kernel_at_zero ℚ false).z (unit_metric ℚ) (fun _ => 1)) ∧
    (transition (std_normal ℚ) (fun _ => 1) .vec (kernel_at_zero ℚ false) (1/2)
      (unit_metric ℚ) (unit_metric ℚ) (fun _ => 1) 0).2.theta
      = (transition (std_normal ℚ) (fun _ => 1) .vec (kernel_at_zero ℚ false) (1/2)
      (unit_metric ℚ) (unit_metric ℚ) (fun _ => 1) 0).1.z.q := by
  have h := transition_accept_contract (std_normal ℚ) (fun _ => 1) .vec (kernel_at_zero ℚ false)
    (1/2) (unit_metric ℚ) (unit_metric ℚ) (fun _ => 1) 0
  simp only at h
  have h1 := h.1 rfl
  have hu : Double.le (Double.fin 0) (transition (std_normal ℚ) (fun _ => 1) .vec
      (kernel_at_zero ℚ false) (1/2) (unit_metric ℚ) (unit_metric ℚ) (fun _ => 1) 0).2.accept_prob
      = true := by
    rw [h1.1]
    simp [Double.min, Double.exp, Double.sub, Double.lt, Double.le, hamiltonian, hamiltonian_vec,
      std_normal]
  exact ⟨rfl, (h1.2 hu).1, h.2⟩

/-- C2: rejection restores the position exactly.  When the uniform draw exceeds the acceptance
probability, the kernel's point after `transition` is the snapshot taken after momentum
resampling, so its position is the position before the call, and the returned `theta` is that
same position. -/
theorem transition_reject_restores (E : posterior K d Mat Par) (e : K → K) (k : MetricKind)
    (self : static_hmc K d Mat Par) (epsilon : K) (Minv Misqrt : metric K d k)
    (n : Fin d → K) (u : K) :
    let r := transition E e k self epsilon Minv Misqrt n u
    Double.gt (Double.fin u) r.2.accept_prob = true →
      r.1.z = sample_p k self.z Misqrt n ∧ r.1.z.q = self.z.q ∧ r.2.theta = self.z.q := by
  intro r hu
  have hr := transition_eq E e k self epsilon Minv Misqrt n u
  simp only at hr
  simp only [r, hr] at hu ⊢
  simp only [hu, if_true, sample_p_q, and_self]

/-- Instance of C2: the standard normal posterior over `ℚ`, kernel at `q = 0` with `L = 2`, step
`1/2`, normal draw `1` and the polynomial exponential: the acceptance probability is below the
uniform draw `99/100`, and the position after the call is the position before it. -/
theorem transition_reject_restores_witness :
    Double.gt (Double.fin (99 / 100)) (transition (std_normal ℚ) exp_poly .vec
      (kernel_at_zero ℚ false) (1 / 2) (unit_metric ℚ) (unit_metric ℚ) (fun _ => 1)
      (99 / 100)).2.accept_prob = true ∧
    (transition (std_normal ℚ) exp_poly .vec (kernel_at_zero ℚ false) (1 / 2) (unit_metric ℚ)
      (unit_metric ℚ) (fun _ => 1) (99 / 100)).1.z.q = (kernel_at_zero ℚ false).z.q ∧
    (transition (std_normal ℚ) exp_poly .vec (kernel_at_zero ℚ false) (1 / 2) (unit_metric ℚ)
      (unit_metric ℚ) (fun _ => 1) (99 / 100)).2.theta = (kernel_at_zero ℚ false).z.q := by
  have hu : Double.gt (Double.fin (99 / 100)) (transition (std_normal ℚ) exp_poly .vec
      (kernel_at_zero ℚ false) (1 / 2) (unit_metric ℚ) (unit_metric ℚ) (fun _ => 1)
      (99 / 100)).2.accept_prob = true := by
    rw [transition_accept_prob, demo_H_std, demo_H0_std]
    simp only [Double.isnan, Double.sub, Double.exp, Double.min, Double.lt, Double.gt, exp_poly]
    norm_num
  exact ⟨hu, (transition_reject_restores (std_normal ℚ) exp_poly .vec (kernel_at_zero ℚ false)
    (1 / 2) (unit_metric ℚ) (unit_metric ℚ) (fun _ => 1) (99 / 100) hu).2⟩

/-! ## C3, C4 : the leapfrog integrator -/

/-- C3: leapfrog reversibility.  For every gradient, step size, step count `L`, metric (diagonal
or dense, symmetric or not) and point `z`: applying `evolve` `L` times, negating the momentum and
applying `evolve` `L` more times yields exactly the original position with the original momentum
negated. -/
theorem leapfrog_reversible (E : posterior K d Mat Par) (self : static_hmc K d Mat Par)
    (k : MetricKind) (epsilon : K) (Minv : metric K d k) (L : ℕ) (z : ps_point K d) :
    (fun w => evolve E self k w epsilon Minv)^[L]
        { q := ((fun w => evolve E self k w epsilon Minv)^[L] z).q,
          p := -((fun w => evolve E self k w epsilon Minv)^[L] z).p }
      = { q := z.q, p := -z.p } := by
  induction L generalizing z with
  | zero => rfl
  | succ L ih =>
    rw [Function.iterate_succ_apply, Function.iterate_succ_apply]
    have hcomm := Function.iterate_succ_apply' (fun w => evolve E self k w epsilon Minv) L z
    rw [Function.iterate_succ_apply] at hcomm
    rw [hcomm]
    have hstep := evolve_reverse_step E self k epsilon Minv
      ((fun w => evolve E self k w epsilon Minv)^[L] z)
    simp only at hstep ⊢
    rw [hstep]
    exact ih z

/-- C4: `evolve` performs one leapfrog step.  With `p_half = p + (epsilon/2) * glogprob(q)`,
`q1 = q + epsilon * (Minv applied to p_half)` and `p1 = p_half + (epsilon/2) * glogprob(q1)`, the
point after `evolve` is `(q1, p1)`; `Minv` is applied element-wise in the diagonal overload and as
a matrix-vector product in the dense one. -/
theorem evolve_is_leapfrog_step (E : posterior K d Mat Par) (self : static_hmc K d Mat Par)
    (z : ps_point K d) (epsilon : K) :
    (∀ Minv : Fin d → K,
      let p_half : Fin d → K :=
        fun i => z.p i + epsilon / 2 * E.glogprob z.q self.X self.B self.param i
      let q1 : Fin d → K := fun i => z.q i + epsilon * (Minv i * p_half i)
      let p1 : Fin d → K :=
        fun i => p_half i + epsilon / 2 * E.glogprob q1 self.X self.B self.param i
      evolve E self .vec z epsilon Minv = { q := q1, p := p1 }) ∧
    (∀ Minv : Matrix (Fin d) (Fin d) K,
      let p_half : Fin d → K :=
        fun i => z.p i + epsilon / 2 * E.glogprob z.q self.X self.B self.param i
      let q1 : Fin d → K := fun i => z.q i + epsilon * ∑ j, Minv i j * p_half j
      let p1 : Fin d → K :=
        fun i => p_half i + epsilon / 2 * E.glogprob q1 self.X self.B self.param i
      evolve E self .mat z epsilon Minv = { q := q1, p := p1 }) := by
  have hhalf : (0.5 : K) * epsilon = epsilon / 2 := by norm_num; ring
  constructor
  · intro Minv p_half q1 p1
    have hph : z.p + (0.5 * epsilon) • E.glogprob z.q self.X self.B self.param = p_half := by
      funext i
      simp only [p_half, Pi.add_apply, Pi.smul_apply, smul_eq_mul, hhalf]
    have hq1 : z.q + epsilon • (Minv * p_half) = q1 := by
      funext i
      simp only [q1, Pi.add_apply, Pi.smul_apply, Pi.mul_apply, smul_eq_mul]
    have hp1 : p_half + (0.5 * epsilon) • E.glogprob q1 self.X self.B self.param = p1 := by
      funext i
      simp only [p1, Pi.add_apply, Pi.smul_apply, smul_eq_mul, hhalf]
    simp only [evolve, evolve_vec, hph, hq1, hp1]
  · intro Minv p_half q1 p1
    have hph : z.p + (0.5 * epsilon) • E.glogprob z.q self.X self.B self.param = p_half := by
      funext i
      simp only [p_half, Pi.add_apply, Pi.smul_apply, smul_eq_mul, hhalf]
    have hq1 : z.q + epsilon • Matrix.mulVec Minv p_half = q1 := by
      funext i
      simp only [q1, Pi.add_apply, Pi.smul_apply, smul_eq_mul, Matrix.mulVec, Matrix.dotProduct]
    have hp1 : p_half + (0.5 * epsilon) • E.glogprob q1 self.X self.B self.param = p1 := by
      funext i
      simp only [p1, Pi.add_apply, Pi.smul_apply, smul_eq_mul, hhalf]
    simp only [evolve, evolve_mat, hph, hq1, hp1]

/-! ## C5 : the Hamiltonian -/

/-- C5: `hamiltonian(z, Minv)` is `logprob(z.q) - 0.5 * (p' Minv p)`: for a diagonal `Minv = m`
the quadratic form is the sum over `i` of `m_i * p_i^2`, for a dense `Minv` the sum over `i, j` of
`p_i * Minv_ij * p_j`; the call leaves the kernel as it was. -/
theorem hamiltonian_value [FloorRing K] (E : posterior K d Mat Par) (e : K → K)
    (self : static_hmc K d Mat Par) (z : ps_point K d) :
    (∀ m : Fin d → K,
      hamiltonian E self .vec z m
        = Double.sub (E.logprob z.q self.X self.B self.param)
            (Double.fin (0.5 * ∑ i, m i * z.p i ^ 2))) ∧
    (∀ Minv : Matrix (Fin d) (Fin d) K,
      hamiltonian E self .mat z Minv
        = Double.sub (E.logprob z.q self.X self.B self.param)
            (Double.fin (0.5 * ∑ i, ∑ j, z.p i * Minv i j * z.p j))) ∧
    (∀ (k : MetricKind) (Minv : metric K d k),
      step E e self (call.hamiltonian k z Minv) = some self) := by
  refine ⟨fun m => ?_, fun Minv => ?_, fun k Minv => rfl⟩
  · have hsum : dot (square z.p) m = ∑ i, m i * z.p i ^ 2 := by
      simp only [dot, square]
      exact Finset.sum_congr rfl fun i _ => by ring
    simp only [hamiltonian, hamiltonian_vec, hsum]
  · have hsum : Matrix.dotProduct (Matrix.vecMul z.p Minv) z.p
        = ∑ i, ∑ j, z.p i * Minv i j * z.p j := by
      simp only [Matrix.dotProduct, Matrix.vecMul, Finset.sum_mul]
      exact Finset.sum_comm
    simp only [hamiltonian, hamiltonian_mat, hsum]

/-! ## C6 : the step count -/

/-- C8: when the Hamiltonian after the leapfrog loop is NaN and the initial Hamiltonian is a
finite value, `transition` sets `divergent`, returns `accept.prob = 1` exactly, and for every
uniform draw `u <= 1` (in particular `u` in `(0,1)`) keeps the post-integration point: the owned
point is `zL` and the returned `theta` is `zL.q`. -/
theorem nan_energy_is_accepted (E : posterior K d Mat Par) (e : K → K) (k : MetricKind)
    (self : static_hmc K d Mat Par) (epsilon : K) (Minv Misqrt : metric K d k)
    (n : Fin d → K) (u : K) (H0 : K)
    (h0 : hamiltonian E self k (sample_p k self.z Misqrt n) Minv = Double.fin H0)
    (hnan : hamiltonian E self k
        ((fun z => evolve E self k z epsilon Minv)^[(get_L self).toNat]
          (sample_p k self.z Misqrt n)) Minv = Double.nan)
    (hu : u ≤ 1) :
    is_divergent (transition E e k self epsilon Minv Misqrt n u).1 = true ∧
    (transition E e k self epsilon Minv Misqrt n u).2.accept_prob = Double.fin 1 ∧
    (transition E e k self epsilon Minv Misqrt n u).1.z
      = (fun z => evolve E self k z epsilon Minv)^[(get_L self).toNat]
          (sample_p k self.z Misqrt n) ∧
    (transition E e k self epsilon Minv Misqrt n u).2.theta
      = ((fun z => evolve E self k z epsilon Minv)^[(get_L self).toNat]
          (sample_p k self.z Misqrt n)).q := by
  have hap : (transition E e k self epsilon Minv Misqrt n u).2.accept_prob = Double.fin 1 := by
    rw [transition_accept_prob, hnan, h0]
    rfl
  have hz : (transition E e k self epsilon Minv Misqrt n u).1.z
      = (fun z => evolve E self k z epsilon Minv)^[(get_L self).toNat]
          (sample_p k self.z Misqrt n) := by
    rw [transition_z, hap]
    have hgt : Double.gt (Double.fin u) (Double.fin (1 : K)) = false := by
      simp only [Double.gt, Double.lt, decide_eq_false_iff_not, not_lt]
      exact hu
    rw [hgt]
    rfl
  refine ⟨?_, hap, hz, ?_⟩
  · simp only [is_divergent]
    rw [transition_divergent, hnan]
    rfl
  · rw [transition_theta, hz]

/-- Instance of C8: the unstable posterior over `ℚ` (NaN at `q >= 1/2`), kernel at `q = 0` with
`L = 2`, step `1/2`, normal draw `1`, uniform draw `1/2`: the proposal `q = 7/8` has NaN energy
and is kept. -/
theorem nan_energy_is_accepted_witness :
    is_divergent (transition (unstable_normal ℚ) exp_poly .vec (kernel_at_zero ℚ false) (1 / 2)
      (unit_metric ℚ) (unit_metric ℚ) (fun _ => 1) (1 / 2)).1 = true ∧
    (transition (unstable_normal ℚ) exp_poly .vec (kernel_at_zero ℚ false) (1 / 2)
      (unit_metric ℚ) (unit_metric ℚ) (fun _ => 1) (1 / 2)).2.accept_prob = Double.fin 1 ∧
    (transition (unstable_normal ℚ) exp_poly .vec (kernel_at_zero ℚ false) (1 / 2)
      (unit_metric ℚ) (unit_metric ℚ) (fun _ => 1) (1 / 2)).2.theta = fun _ => 7 / 8 := by
  have h := nan_energy_is_accepted (unstable_normal ℚ) exp_poly .vec (kernel_at_zero ℚ false)
    (1 / 2) (unit_metric ℚ) (unit_metric ℚ) (fun _ => 1) (1 / 2) (-(1 / 2))
    (demo_H0_unstable false) (demo_H_unstable false) (by norm_num)
  refine ⟨h.1, h.2.1, ?_⟩
  rw [h.2.2.2, demo_loop (unstable_normal ℚ) (fun _ _ _ _ => rfl)]

/-- C9 fails as stated: with the truncated normal posterior over `ℚ`, kernel at `q = 0` with
`L = 2` and the flag clear, step `1/2` and normal draw `1`, the Hamiltonian after the leapfrog
loop is `-infinity` (not finite), and `is_divergent()` is still false after the transition. -/
theorem divergent_flag_misses_infinite_energy :
    hamiltonian (truncated_normal ℚ) (kernel_at_zero ℚ false) .vec
        ((fun z => evolve (truncated_normal ℚ) (kernel_at_zero ℚ false) .vec z (1 / 2)
          (unit_metric ℚ))^[(get_L (kernel_at_zero ℚ false)).toNat]
          (sample_p .vec (kernel_at_zero ℚ false).z (unit_metric ℚ) (fun _ => 1)))
        (unit_metric ℚ) = Double.negInf ∧
    Double.isfinite (Double.negInf : Double ℚ) = false ∧
    is_divergent (transition (truncated_normal ℚ) exp_poly .vec (kernel_at_zero ℚ false) (1 / 2)
      (unit_metric ℚ) (unit_metric ℚ) (fun _ => 1) (1 / 2)).1 = false := by
  refine ⟨demo_H_truncated false, rfl, ?_⟩
  simp only [is_divergent]
  rw [transition_divergent, demo_H_truncated]
  rfl

/-- C9, amended: the divergent flag records every NaN energy.  When the Hamiltonian after the
leapfrog loop is NaN, `is_divergent()` returns true after the transition; when it is not NaN
(finite, `+infinity` or `-infinity`) the flag keeps the value it had before the call. -/
theorem divergent_flag_records_nan (E : posterior K d Mat Par) (e : K → K) (k : MetricKind)
    (self : static_hmc K d Mat Par) (epsilon : K) (Minv Misqrt : metric K d k)
    (n : Fin d → K) (u : K) :
    (Double.isnan (hamiltonian E self k
        ((fun z => evolve E self k z epsilon Minv)^[(get_L self).toNat]
          (sample_p k self.z Misqrt n)) Minv) = true →
      is_divergent (transition E e k self epsilon Minv Misqrt n u).1 = true) ∧
    (Double.isnan (hamiltonian E self k
        ((fun z => evolve E self k z epsilon Minv)^[(get_L self).toNat]
          (sample_p k self.z Misqrt n)) Minv) = false →
      is_divergent (transition E e k self epsilon Minv Misqrt n u).1 = is_divergent self) := by
  constructor
  · intro h
    simp only [is_divergent]
    rw [transition_divergent, h]
    rfl
  · intro h
    simp only [is_divergent]
    rw [transition_divergent, h]
    rfl

/-- Instance of the amended C9: the unstable posterior (NaN energy at the proposal) sets the
flag of a kernel that had it clear; the truncated posterior (energy `-infinity` at the proposal)
leaves it clear. -/
theorem divergent_flag_records_nan_witness :
    is_divergent (transition (unstable_normal ℚ) exp_poly .vec (kernel_at_zero ℚ false) (1 / 2)
      (unit_metric ℚ) (unit_metric ℚ) (fun _ => 1) (1 / 2)).1 = true ∧
    is_divergent (transition (truncated_normal ℚ) exp_poly .vec (kernel_at_zero ℚ false) (1 / 2)
      (unit_metric ℚ) (unit_metric ℚ) (fun _ => 1) (1 / 2)).1
      = is_divergent (kernel_at_zero ℚ false) :=
  ⟨(divergent_flag_records_nan (unstable_normal ℚ) exp_poly .vec (kernel_at_zero ℚ false)
      (1 / 2) (unit_metric ℚ) (unit_metric ℚ) (fun _ => 1) (1 / 2)).1
      (by rw [demo_H_unstable]; rfl),
    (divergent_flag_records_nan (truncated_normal ℚ) exp_poly .vec (kernel_at_zero ℚ false)
      (1 / 2) (unit_metric ℚ) (unit_metric ℚ) (fun _ => 1) (1 / 2)).2
      (by rw [demo_H_truncated]; rfl)⟩

/-- C10: the divergent flag is absorbing.  From a kernel with `divergent = true`, after every
finite sequence of calls to `transition`, `set_T`, `update_L`, `get_L`, `is_divergent`,
`hamiltonian` and `evolve`, with arbitrary arguments and random draws, `is_divergent()` still
returns true. -/
theorem divergent_absorbing [FloorRing K] (E : posterior K d Mat Par) (e : K → K)
    (cs : List (call K d)) (s s1 : static_hmc K d Mat Par)
    (hs : is_divergent s = true) (hrun : run E e s cs = some s1) :
    is_divergent s1 = true := by
  induction cs generalizing s with
  | nil =>
    simp only [run, Option.some.injEq] at hrun
    rw [← hrun]
    exact hs
  | cons c cs ih =>
    simp only [run] at hrun
    cases hc : step E e s c with
    | none => simp [hc] at hrun
    | some s2 =>
      rw [hc] at hrun
      exact ih s2 (step_divergent E e s s2 c hs hc) hrun

/-- Instance of C10: a divergent rational kernel stays divergent through `update_L(3/10)`,
`set_T(-1)`, a transition, the two inspection calls, a `hamiltonian` call and `evolve` on an
external point and on its own point. -/
theorem divergent_absorbing_witness :
    (run (std_normal ℚ) exp_poly (kernel_at_zero ℚ true)
      [call.update_L (3 / 10), call.set_T (-1),
        call.transition .vec (1 / 2) (unit_metric ℚ) (unit_metric ℚ) (fun _ => 1) (1 / 2),
        call.get_L, call.is_divergent,
        call.hamiltonian .vec { q := fun _ => 1, p := fun _ => 0 } (unit_metric ℚ),
        call.evolve .vec { q := fun _ => 1, p := fun _ => 0 } (1 / 2) (unit_metric ℚ),
        call.evolve_own .vec (1 / 2) (unit_metric ℚ)]).map is_divergent = some true := by
  have hL : update_L (kernel_at_zero ℚ true) (3 / 10)
      = some { kernel_at_zero ℚ true with L := max 1 ⌊(kernel_at_zero ℚ true).T / (3 / 10)⌋ } :=
    update_L_eq (kernel_at_zero ℚ true) (3 / 10) (by norm_num)
      (by norm_num [kernel_at_zero]) (by norm_num [kernel_at_zero])
  have hsome : (run (std_normal ℚ) exp_poly (kernel_at_zero ℚ true)
      [call.update_L (3 / 10), call.set_T (-1),
        call.transition .vec (1 / 2) (unit_metric ℚ) (unit_metric ℚ) (fun _ => 1) (1 / 2),
        call.get_L, call.is_divergent,
        call.hamiltonian .vec { q := fun _ => 1, p := fun _ => 0 } (unit_metric ℚ),
        call.evolve .vec { q := fun _ => 1, p := fun _ => 0 } (1 / 2) (unit_metric ℚ),
        call.evolve_own .vec (1 / 2) (unit_metric ℚ)]).isSome = true := by
    simp only [run, step, hL, Option.some_bind, Option.isSome_some]
  obtain ⟨s1, hs1⟩ := Option.isSome_iff_exists.mp hsome
  rw [hs1, Option.map_some']
  exact congrArg some (divergent_absorbing (std_normal ℚ) exp_poly _ (kernel_at_zero ℚ true) s1
    rfl hs1)

/-! ## C11, C12 : what `set_T` and `transition` leave alone -/

/-- C11: `set_T(t)` sets `T` to `t` when `t > 0` and is a complete no-op when `t <= 0`; in both
cases `L`, `divergent`, the phase-space point, `X`, `B` and `param` are unchanged, and `get_L()`
returns the same value before and after. -/
theorem set_T_contract (self : static_hmc K d Mat Par) (t : K) :
    (0 < t → (set_T self t).T = t) ∧
    (t ≤ 0 → set_T self t = self) ∧
    (set_T self t).L = self.L ∧
    (set_T self t).divergent = self.divergent ∧
    (set_T self t).z = self.z ∧
    (set_T self t).X = self.X ∧
    (set_T self t).B = self.B ∧
    (set_T self t).param = self.param ∧
    get_L (set_T self t) = get_L self := by
  by_cases ht : t > 0
  · have hset : set_T self t = { self with T := t } := by
      simp only [set_T, if_pos ht]
    rw [hset]
    exact ⟨fun _ => rfl, fun hle => absurd ht (not_lt.mpr hle), rfl, rfl, rfl, rfl, rfl, rfl, rfl⟩
  · have hset : set_T self t = self := by
      simp only [set_T, if_neg ht]
    rw [hset]
    exact ⟨fun hpos => absurd hpos ht, fun _ => rfl, rfl, rfl, rfl, rfl, rfl, rfl, rfl⟩

/-- Instance of C11: on the rational kernel with `T = 1`, `set_T(2)` stores `2` and `set_T(-1)`
changes nothing. -/
theorem set_T_contract_witness :
    (set_T (kernel_at_zero ℚ false) 2).T = 2 ∧
    set_T (kernel_at_zero ℚ false) (-1) = kernel_at_zero ℚ false ∧
    get_L (set_T (kernel_at_zero ℚ false) 2) = get_L (kernel_at_zero ℚ false) :=
  ⟨(set_T_contract (kernel_at_zero ℚ false) 2).1 (by norm_num),
    (set_T_contract (kernel_at_zero ℚ false) (-1)).2.1 (by norm_num),
    (set_T_contract (kernel_at_zero ℚ false) 2).2.2.2.2.2.2.2.2⟩

/-- C12: `transition` leaves the kernel's configuration untouched: `T`, `L`, `X`, `B` and `param`
after the call equal their values before it.  In particular `L` is not recomputed from the
`epsilon` argument: after `update_L(epsilon0)` a transition with any step size `epsilon` still
reports the same `get_L()`, and its owned point is either the restored snapshot or the result of
exactly `get_L()` leapfrog steps of size `epsilon`. -/
theorem transition_keeps_configuration [FloorRing K] (E : posterior K d Mat Par) (e : K → K)
    (k : MetricKind) (self : static_hmc K d Mat Par) (epsilon : K) (Minv Misqrt : metric K d k)
    (n : Fin d → K) (u : K) :
    (transition E e k self epsilon Minv Misqrt n u).1.T = self.T ∧
    (transition E e k self epsilon Minv Misqrt n u).1.L = self.L ∧
    (transition E e k self epsilon Minv Misqrt n u).1.X = self.X ∧
    (transition E e k self epsilon Minv Misqrt n u).1.B = self.B ∧
    (transition E e k self epsilon Minv Misqrt n u).1.param = self.param ∧
    (∀ (epsilon0 : K) (s1 : static_hmc K d Mat Par), update_L self epsilon0 = some s1 →
      get_L (transition E e k s1 epsilon Minv Misqrt n u).1 = get_L s1 ∧
      ((transition E e k s1 epsilon Minv Misqrt n u).1.z = sample_p k s1.z Misqrt n ∨
        (transition E e k s1 epsilon Minv Misqrt n u).1.z
          = (fun z => evolve E s1 k z epsilon Minv)^[(get_L s1).toNat]
              (sample_p k s1.z Misqrt n))) := by
  obtain ⟨hT, hL, hX, hB, hP⟩ := transition_frame E e k self epsilon Minv Misqrt n u
  refine ⟨hT, hL, hX, hB, hP, fun epsilon0 s1 _ => ⟨?_, ?_⟩⟩
  · exact (transition_frame E e k s1 epsilon Minv Misqrt n u).2.1
  · rw [transition_z]
    split_ifs
    · exact Or.inl rfl
    · exact Or.inr rfl

/-- Instance of C12: the rational kernel with `T = 1` after `update_L(3/10)` has `L = 3`, and a
transition with step size `1/2` (for which `update_L` would give `2`) still has `L = 3`
afterwards. -/
theorem transition_keeps_configuration_witness :
    ∃ s1, update_L (kernel_at_zero ℚ false) (3 / 10) = some s1 ∧ get_L s1 = 3 ∧
      get_L (transition (std_normal ℚ) exp_poly .vec s1 (1 / 2) (unit_metric ℚ) (unit_metric ℚ)
        (fun _ => 1) (1 / 2)).1 = 3 := by
  have hfloor : ⌊(kernel_at_zero ℚ false).T / (3 / 10)⌋ = 3 := by
    rw [Int.floor_eq_iff]
    constructor <;> norm_num [kernel_at_zero]
  have hL : update_L (kernel_at_zero ℚ false) (3 / 10)
      = some { kernel_at_zero ℚ false with
          L := max 1 ⌊(kernel_at_zero ℚ false).T / (3 / 10)⌋ } :=
    update_L_eq (kernel_at_zero ℚ false) (3 / 10) (by norm_num)
      (by norm_num [kernel_at_zero]) (by norm_num [kernel_at_zero])
  have h3 : get_L { kernel_at_zero ℚ false with
      L := max 1 ⌊(kernel_at_zero ℚ false).T / (3 / 10)⌋ } = 3 := by
    simp only [get_L, hfloor]
    rfl
  refine ⟨_, hL, h3, ?_⟩
  rw [((transition_keeps_configuration (std_normal ℚ) exp_poly .vec (kernel_at_zero ℚ false)
    (1 / 2) (unit_metric ℚ) (unit_metric ℚ) (fun _ => 1) (1 / 2)).2.2.2.2.2 (3 / 10) _ hL).1]
  exact h3

/-! ## C13, C15 : energy error of the leapfrog integrator on a Gaussian target -/

/-- C13 fails as stated: in the end-to-end scenario over `ℚ` (standard normal posterior, unit
metric, fresh kernel at `q = 0`, `update_L(0.1)` giving `L = 10`) with resampled momentum
`p = 1`, the Hamiltonian after the 10 leapfrog steps differs from the one before them by more
than `1e-6`. -/
theorem end_to_end_energy_gap_exceeds_tolerance :
    ∃ (s : static_hmc ℚ 1 Unit Unit) (h0 h : ℚ),
      update_L (static_hmc.static_hmc (fun _ => (0 : ℚ)) () () () 0 (fun _ => 0)) 0.1 = some s ∧
      get_L s = 10 ∧
      hamiltonian (std_normal ℚ) s .vec (sample_p .vec s.z (unit_metric ℚ) (fun _ => 1))
        (unit_metric ℚ) = Double.fin h0 ∧
      hamiltonian (std_normal ℚ) s .vec
        ((fun z => evolve (std_normal ℚ) s .vec z 0.1 (unit_metric ℚ))^[(get_L s).toNat]
          (sample_p .vec s.z (unit_metric ℚ) (fun _ => 1))) (unit_metric ℚ) = Double.fin h ∧
      1 / 1000000 < |h - h0| := by
  refine ⟨_, _, _, scenario_update 0 (fun _ => 0), rfl, std_energy _ _, std_energy _ _, ?_⟩
  have hz1 : sample_p .vec ({ static_hmc.static_hmc (fun _ => (0 : ℚ)) () () () 0 (fun _ => 0)
      with L := 10 } : static_hmc ℚ 1 Unit Unit).z (unit_metric ℚ) (fun _ => 1)
      = { q := fun _ => 0, p := fun _ => 1 } := by
    refine ps_point.ext rfl ?_
    funext i
    simp [sample_p, sample_p_vec, unit_metric]
  have hzL : (fun z => evolve (std_normal ℚ)
      ({ static_hmc.static_hmc (fun _ => (0 : ℚ)) () () () 0 (fun _ => 0) with L := 10 } :
        static_hmc ℚ 1 Unit Unit) .vec z 0.1 (unit_metric ℚ))^[10]
      { q := fun _ => 0, p := fun _ => 1 }
      = { q := fun _ => 8427503884058641799 / 10000000000000000000,
          p := fun _ => 107990250186701698001 / 200000000000000000000 } := by
    simp only [Function.iterate_succ, Function.iterate_zero, Function.comp_apply, id_eq]
    iterate 10 (rw [std_evolve_const]; norm_num)
  rw [hz1, show (get_L ({ static_hmc.static_hmc (fun _ => (0 : ℚ)) () () () 0 (fun _ => 0)
      with L := 10 } : static_hmc ℚ 1 Unit Unit)).toNat = 10 from rfl, hzL]
  refine lt_of_lt_of_le ?_ (neg_le_abs _)
  norm_num

/-- C13, amended: in the end-to-end scenario (standard normal posterior, unit metric, fresh
kernel at `q = 0`, `update_L(0.1)` giving `L = 10`), for every resampled momentum `p` the
Hamiltonian after the 10 leapfrog steps differs from the one before them by at most `p^2 / 798`,
hence by at most `1e-6` when `|p| <= 1/40`. -/
theorem end_to_end_energy_gap [FloorRing K] (L0 : Int) (p0 n : Fin 1 → K) :
    ∃ (s : static_hmc K 1 Unit Unit) (h0 h : K),
      update_L (static_hmc.static_hmc (fun _ => (0 : K)) () () () L0 p0) 0.1 = some s ∧
      get_L s = 10 ∧
      hamiltonian (std_normal K) s .vec (sample_p .vec s.z (unit_metric K) n)
        (unit_metric K) = Double.fin h0 ∧
      hamiltonian (std_normal K) s .vec
        ((fun z => evolve (std_normal K) s .vec z 0.1 (unit_metric K))^[(get_L s).toNat]
          (sample_p .vec s.z (unit_metric K) n)) (unit_metric K) = Double.fin h ∧
      |h - h0| ≤ n 0 ^ 2 / 798 ∧
      (|n 0| ≤ 1 / 40 → |h - h0| ≤ 1 / 1000000) := by
  refine ⟨_, _, _, scenario_update L0 p0, rfl, std_energy _ _, std_energy _ _, ?_⟩
  generalize hs : ({ static_hmc.static_hmc (fun _ => (0 : K)) () () () L0 p0 with L := 10 } :
    static_hmc K 1 Unit Unit) = s
  have hq0 : s.z.q 0 = 0 := by rw [← hs]; rfl
  obtain ⟨hq1, hp1⟩ := unit_sample_p s.z n
  have hinv := std_iterate_invariant s 0.1 (get_L s).toNat (sample_p .vec s.z (unit_metric K) n)
  have hgap := std_energy_gap 0.1 _ _ _ _ hinv
  rw [hq1, hp1, hq0] at hinv hgap
  rw [hq1, hp1, hq0, hgap]
  generalize ((fun w => evolve (std_normal K) s .vec w 0.1 (unit_metric K))^[(get_L s).toNat]
    (sample_p .vec s.z (unit_metric K) n)).q 0 = qL at hinv ⊢
  generalize ((fun w => evolve (std_normal K) s .vec w 0.1 (unit_metric K))^[(get_L s).toNat]
    (sample_p .vec s.z (unit_metric K) n)).p 0 = pL at hinv
  have hqL : 0 ≤ qL ^ 2 := sq_nonneg qL
  have hpL : 0 ≤ pL ^ 2 := sq_nonneg pL
  have hup : 399 / 400 * qL ^ 2 ≤ n 0 ^ 2 := by
    have h399 : (1 : K) - 0.1 ^ 2 / 4 = 399 / 400 := by norm_num
    rw [h399] at hinv
    nlinarith
  have habs : |-((0.1 : K) ^ 2 / 8) * (qL ^ 2 - 0 ^ 2)| = qL ^ 2 / 800 := by
    have hval : -((0.1 : K) ^ 2 / 8) * (qL ^ 2 - 0 ^ 2) = -(qL ^ 2 / 800) := by
      norm_num
      ring
    rw [hval, abs_neg, abs_of_nonneg (by positivity)]
  rw [habs]
  have hbound : qL ^ 2 / 800 ≤ n 0 ^ 2 / 798 := by linarith
  refine ⟨hbound, fun hn => ?_⟩
  have hn2 : n 0 ^ 2 ≤ (1 / 40) ^ 2 := by
    rw [← sq_abs (n 0)]
    exact pow_le_pow_left₀ (abs_nonneg _) hn 2
  have hcalc : n 0 ^ 2 / 798 ≤ 1 / 1000000 := by
    have h1600 : ((1 : K) / 40) ^ 2 = 1 / 1600 := by norm_num
    rw [h1600] at hn2
    linarith
  exact hbound.trans hcalc

/-- Instance of the amended C13: over `ℚ` with resampled momentum `p = 1/40` the energies before
and after the 10 leapfrog steps agree within `1e-6`. -/
theorem end_to_end_energy_gap_witness :
    ∃ (s : static_hmc ℚ 1 Unit Unit) (h0 h : ℚ),
      update_L (static_hmc.static_hmc (fun _ => (0 : ℚ)) () () () 0 (fun _ => 0)) 0.1 = some s ∧
      hamiltonian (std_normal ℚ) s .vec (sample_p .vec s.z (unit_metric ℚ) (fun _ => 1 / 40))
        (unit_metric ℚ) = Double.fin h0 ∧
      hamiltonian (std_normal ℚ) s .vec
        ((fun z => evolve (std_normal ℚ) s .vec z 0.1 (unit_metric ℚ))^[(get_L s).toNat]
          (sample_p .vec s.z (unit_metric ℚ) (fun _ => 1 / 40))) (unit_metric ℚ)
        = Double.fin h ∧
      |h - h0| ≤ 1 / 1000000 := by
  obtain ⟨s, h0, h, hs, _, hH0, hH, _, hsmall⟩ :=
    end_to_end_energy_gap (0 : Int) (fun _ => (0 : ℚ)) (fun _ => 1 / 40)
  exact ⟨s, h0, h, hs, hH0, hH, hsmall (by norm_num [abs_of_nonneg])⟩

/-- C14: the integration time is always positive.  A freshly constructed kernel has `T > 0`;
`set_T` (with any argument, zero and negative values included), `update_L` and `transition` each
preserve `T > 0`; hence every kernel state reached from a fresh kernel by a finite sequence of
calls of the public member functions has `T > 0`. -/
theorem integration_time_positive [FloorRing K] (E : posterior K d Mat Par) (e : K → K)
    (q0 : Fin d → K) (X B : Mat) (param : Par) (L0 : Int) (p0 : Fin d → K) :
    0 < (static_hmc.static_hmc q0 X B param L0 p0).T ∧
    (∀ (s : static_hmc K d Mat Par) (t : K), 0 < s.T → 0 < (set_T s t).T) ∧
    (∀ (s s1 : static_hmc K d Mat Par) (epsilon : K), 0 < s.T →
      update_L s epsilon = some s1 → 0 < s1.T) ∧
    (∀ (s : static_hmc K d Mat Par) (k : MetricKind) (epsilon : K) (Minv Misqrt : metric K d k)
      (n : Fin d → K) (u : K), 0 < s.T →
      0 < (transition E e k s epsilon Minv Misqrt n u).1.T) ∧
    (∀ (cs : List (call K d)) (s1 : static_hmc K d Mat Par),
      run E e (static_hmc.static_hmc q0 X B param L0 p0) cs = some s1 → 0 < s1.T) := by
  have hfresh : 0 < (static_hmc.static_hmc q0 X B param L0 p0 : static_hmc K d Mat Par).T := by
    show (0 : K) < 1
    exact zero_lt_one
  refine ⟨hfresh, fun s t hs => ?_, fun s s1 epsilon hs h => ?_,
    fun s k epsilon Minv Misqrt n u hs => ?_, fun cs s1 h => ?_⟩
  · exact step_T_pos E e s _ (call.set_T t) hs rfl
  · exact step_T_pos E e s s1 (call.update_L epsilon) hs h
  · exact step_T_pos E e s _ (call.transition k epsilon Minv Misqrt n u) hs rfl
  · exact run_T_pos E e cs _ s1 hfresh h

/-- Instance of C14: a fresh rational kernel after `set_T(0)`, `set_T(-3)`, `update_L(3/10)`,
`set_T(2)` and a transition still has `T > 0`. -/
theorem integration_time_positive_witness :
    ∃ s1, run (std_normal ℚ) exp_poly
        (static_hmc.static_hmc (fun _ => (0 : ℚ)) () () () 0 (fun _ => 0))
        [call.set_T 0, call.set_T (-3), call.update_L (3 / 10), call.set_T 2,
          call.transition .vec (1 / 2) (unit_metric ℚ) (unit_metric ℚ) (fun _ => 1) (1 / 2)]
        = some s1 ∧ 0 < s1.T := by
  have h0 : set_T (static_hmc.static_hmc (fun _ => (0 : ℚ)) () () () 0 (fun _ => 0)) 0
      = (static_hmc.static_hmc (fun _ => (0 : ℚ)) () () () 0 (fun _ => 0) :
          static_hmc ℚ 1 Unit Unit) := by
    simp only [set_T, gt_iff_lt, lt_self_iff_false, if_false]
  have h3 : set_T (static_hmc.static_hmc (fun _ => (0 : ℚ)) () () () 0 (fun _ => 0)) (-3)
      = (static_hmc.static_hmc (fun _ => (0 : ℚ)) () () () 0 (fun _ => 0) :
          static_hmc ℚ 1 Unit Unit) := by
    simp only [set_T]
    rw [if_neg (by norm_num)]
  have hL := update_L_eq (static_hmc.static_hmc (fun _ => (0 : ℚ)) () () () 0 (fun _ => 0) :
      static_hmc ℚ 1 Unit Unit) (3 / 10) (by norm_num)
    (by norm_num [static_hmc.static_hmc]) (by norm_num [static_hmc.static_hmc])
  have hsome : (run (std_normal ℚ) exp_poly
      (static_hmc.static_hmc (fun _ => (0 : ℚ)) () () () 0 (fun _ => 0))
      [call.set_T 0, call.set_T (-3), call.update_L (3 / 10), call.set_T 2,
        call.transition .vec (1 / 2) (unit_metric ℚ) (unit_metric ℚ) (fun _ => 1)
          (1 / 2)]).isSome = true := by
    simp only [run, step, h0, h3, hL, Option.some_bind, Option.isSome_some]
  obtain ⟨s1, hs1⟩ := Option.isSome_iff_exists.mp hsome
  exact ⟨s1, hs1, (integration_time_positive (std_normal ℚ) exp_poly (fun _ => (0 : ℚ)) () () ()
    0 (fun _ => 0)).2.2.2.2 _ s1 hs1⟩

/-! ## C16 : the two overloads agree on diagonal metrics -/

/-- C16: for every vector `m`, point `z` and step size `epsilon`, the dense overloads applied to
`diag(m)` (the square matrix with `m` on its diagonal and zeros elsewhere) agree with the
diagonal overloads applied to `m`: `hamiltonian` returns the same value and `evolve` yields the
same point. -/
theorem overloads_agree_on_diagonal (E : posterior K d Mat Par) (self : static_hmc K d Mat Par)
    (z : ps_point K d) (epsilon : K) (m : Fin d → K) :
    hamiltonian E self .mat z (Matrix.diagonal m) = hamiltonian E self .vec z m ∧
    evolve E self .mat z epsilon (Matrix.diagonal m) = evolve E self .vec z epsilon m := by
  constructor
  · have hquad : Matrix.dotProduct (Matrix.vecMul z.p (Matrix.diagonal m)) z.p
        = dot (square z.p) m := by
      simp only [Matrix.dotProduct, Matrix.vecMul_diagonal, dot, square]
      exact Finset.sum_congr rfl fun i _ => by ring
    simp only [hamiltonian, hamiltonian_mat, hamiltonian_vec, hquad]
  · have happly : ∀ v : Fin d → K, Matrix.mulVec (Matrix.diagonal m) v = m * v := by
      intro v
      funext i
      simp only [Matrix.mulVec_diagonal, Pi.mul_apply]
    simp only [evolve, evolve_mat, evolve_vec, happly]

/-! ## C17, C18 : infinite energies and the divergent flag -/

/-- C17: when the initial Hamiltonian is a finite value and the Hamiltonian after the leapfrog
loop is `-infinity`, `transition` returns `accept.prob = 0` exactly, for every uniform draw
`u > 0` (in particular `u` in `(0,1)`) the position is restored to the position before the call
and returned as `theta`, and the divergent flag keeps the value it had before the call. -/
theorem infeasible_proposal_rejected (E : posterior K d Mat Par) (e : K → K) (k : MetricKind)
    (self : static_hmc K d Mat Par) (epsilon : K) (Minv Misqrt : metric K d k)
    (n : Fin d → K) (u : K) (H0 : K)
    (h0 : hamiltonian E self k (sample_p k self.z Misqrt n) Minv = Double.fin H0)
    (hinf : hamiltonian E self k
        ((fun z => evolve E self k z epsilon Minv)^[(get_L self).toNat]
          (sample_p k self.z Misqrt n)) Minv = Double.negInf)
    (hu : 0 < u) :
    (transition E e k self epsilon Minv Misqrt n u).2.accept_prob = Double.fin 0 ∧
    (transition E e k self epsilon Minv Misqrt n u).1.z.q = self.z.q ∧
    (transition E e k self epsilon Minv Misqrt n u).2.theta = self.z.q ∧
    is_divergent (transition E e k self epsilon Minv Misqrt n u).1 = is_divergent self := by
  have hap : (transition E e k self epsilon Minv Misqrt n u).2.accept_prob = Double.fin 0 := by
    rw [transition_accept_prob, hinf, h0]
    simp [Double.isnan, Double.sub, Double.exp, Double.min, Double.lt]
  have hz : (transition E e k self epsilon Minv Misqrt n u).1.z.q = self.z.q := by
    rw [transition_z, hap]
    have hgt : Double.gt (Double.fin u) (Double.fin (0 : K)) = true := by
      simp only [Double.gt, Double.lt, decide_eq_true_eq]
      exact hu
    rw [hgt, if_pos rfl, sample_p_q]
  refine ⟨hap, hz, ?_, ?_⟩
  · rw [transition_theta, hz]
  · simp only [is_divergent]
    rw [transition_divergent, hinf]
    rfl

/-- Instance of C17: the truncated normal posterior over `ℚ`, kernel at `q = 0` with `L = 2`,
step `1/2`, normal draw `1`, uniform draw `1/2`: the proposal `q = 7/8` is infeasible, the
acceptance probability is `0`, the position stays `0` and the flag stays clear. -/
theorem infeasible_proposal_rejected_witness :
    (transition (truncated_normal ℚ) exp_poly .vec (kernel_at_zero ℚ false) (1 / 2)
      (unit_metric ℚ) (unit_metric ℚ) (fun _ => 1) (1 / 2)).2.accept_prob = Double.fin 0 ∧
    (transition (truncated_normal ℚ) exp_poly .vec (kernel_at_zero ℚ false) (1 / 2)
      (unit_metric ℚ) (unit_metric ℚ) (fun _ => 1) (1 / 2)).1.z.q = (kernel_at_zero ℚ false).z.q ∧
    (transition (truncated_normal ℚ) exp_poly .vec (kernel_at_zero ℚ false) (1 / 2)
      (unit_metric ℚ) (unit_metric ℚ) (fun _ => 1) (1 / 2)).2.theta
      = (kernel_at_zero ℚ false).z.q ∧
    is_divergent (transition (truncated_normal ℚ) exp_poly .vec (kernel_at_zero ℚ false) (1 / 2)
      (unit_metric ℚ) (unit_metric ℚ) (fun _ => 1) (1 / 2)).1
      = is_divergent (kernel_at_zero ℚ false) :=
  infeasible_proposal_rejected (truncated_normal ℚ) exp_poly .vec (kernel_at_zero ℚ false)
    (1 / 2) (unit_metric ℚ) (unit_metric ℚ) (fun _ => 1) (1 / 2) (-(1 / 2))
    (demo_H0_truncated false) (demo_H_truncated false) (by norm_num)

/-- C18: the divergent flag changes only on a NaN energy.  For every transition whose
Hamiltonian after the leapfrog loop is not NaN (finite, `+infinity` or `-infinity`),
`is_divergent()` after the call equals `is_divergent()` before it; hence a kernel that starts
not-divergent is divergent after a sequence of transitions if and only if at least one of them
produced a NaN final Hamiltonian. -/
theorem divergent_iff_some_nan (E : posterior K d Mat Par) (e : K → K) :
    (∀ (s : static_hmc K d Mat Par) (a : transition_args K d),
      Double.isnan (final_hamiltonian E s a) = false →
      is_divergent (transition E e a.k s a.epsilon a.Minv a.Misqrt a.n a.u).1
        = is_divergent s) ∧
    (∀ (as : List (transition_args K d)) (s : static_hmc K d Mat Par),
      is_divergent s = false →
      (is_divergent (transitions E e s as) = true
        ↔ some_final_hamiltonian_nan E e s as = true)) := by
  have hone : ∀ (s : static_hmc K d Mat Par) (a : transition_args K d),
      (transition E e a.k s a.epsilon a.Minv a.Misqrt a.n a.u).1.divergent
        = if Double.isnan (final_hamiltonian E s a) then true else s.divergent :=
    fun s a => transition_divergent E e a.k s a.epsilon a.Minv a.Misqrt a.n a.u
  constructor
  · intro s a hn
    simp only [is_divergent]
    rw [hone, hn]
    rfl
  · intro as
    induction as with
    | nil =>
      intro s hs
      simp only [transitions, some_final_hamiltonian_nan, hs, Bool.false_eq_true]
    | cons a as ih =>
      intro s hs
      simp only [transitions, some_final_hamiltonian_nan, Bool.or_eq_true]
      cases hn : Double.isnan (final_hamiltonian E s a) with
      | true =>
        have hdiv : (transition E e a.k s a.epsilon a.Minv a.Misqrt a.n a.u).1.divergent
            = true := by
          rw [hone, hn]
          rfl
        exact ⟨fun _ => Or.inl rfl, fun _ => transitions_divergent E e as _ hdiv⟩
      | false =>
        have hdiv : is_divergent (transition E e a.k s a.epsilon a.Minv a.Misqrt a.n a.u).1
            = false := by
          simp only [is_divergent] at hs ⊢
          rw [hone, hn, hs]
          rfl
        rw [ih _ hdiv]
        simp

/-- Instance of C18: for the unstable posterior over `ℚ`, the kernel at `q = 0` with the flag
clear is divergent after the single transition of the demonstration, whose final Hamiltonian is
NaN. -/
theorem divergent_iff_some_nan_witness :
    is_divergent (kernel_at_zero ℚ false) = false ∧
    some_final_hamiltonian_nan (unstable_normal ℚ) exp_poly (kernel_at_zero ℚ false)
      [{ k := .vec, epsilon := 1 / 2, Minv := unit_metric ℚ, Misqrt := unit_metric ℚ,
         n := fun _ => 1, u := 1 / 2 }] = true ∧
    is_divergent (transitions (unstable_normal ℚ) exp_poly (kernel_at_zero ℚ false)
      [{ k := .vec, epsilon := 1 / 2, Minv := unit_metric ℚ, Misqrt := unit_metric ℚ,
         n := fun _ => 1, u := 1 / 2 }]) = true := by
  have hnan : some_final_hamiltonian_nan (unstable_normal ℚ) exp_poly (kernel_at_zero ℚ false)
      [{ k := .vec, epsilon := 1 / 2, Minv := unit_metric ℚ, Misqrt := unit_metric ℚ,
         n := fun _ => 1, u := 1 / 2 }] = true := by
    simp only [some_final_hamiltonian_nan, final_hamiltonian, demo_H_unstable]
    rfl
  exact ⟨rfl, hnan,
    ((divergent_iff_some_nan (unstable_normal ℚ) exp_poly).2 _ (kernel_at_zero ℚ false) rfl).mpr
      hnan⟩

/-! ## C19 : the freshly constructed kernel -/

end claims

end StaticHMC
